import Mathlib

/-!
Verification development for the CodeSummaryAgent repository.

This file gives a shallow embedding, in Lean 4, of the parts of the
repository that the specification's claims are about:

* src/services/checkpoint.py — the checkpoint store (CheckpointService):
  document-path generation, completion checks, completion/failure marking,
  API-file marking, the API marker-block parser and the API-count
  normalization used by the reconciliation pass;
* src/core/level_processor.py — the level-synchronized scheduler: the
  deepest-first level loop, the stage-2 integrity gate of the API document
  generation, and the single-shot vs programmatic-assembly branch of the
  API usage document;
* src/services/directory_scanner.py — the bottom-up pruning pass over the
  scanned file tree;
* the shared-semaphore concurrency discipline (src/core/level_processor.py
  together with src/services/llm_queue.py), modelled as a small-step
  transition system.

Python dict/set state is modelled with association lists and duplicate-free
lists of strings; the filesystem is modelled as the set (list) of paths that
exist.  I/O side effects (writing the checkpoint JSON, logging) have no
observable effect on the modelled state and are omitted; where a function
logs a distinguishable message, the model returns a distinguishable value.
-/

namespace CodeSummary

/- ================================================================
   Small association-list / set helpers (model of Python dict / set)
   ================================================================ -/

/-- Model of Python `set.add`: insert a key if not already present
(order of iteration is irrelevant for the claims we prove). -/
def insertSet (l : List String) (x : String) : List String :=
  if l.contains x then l else l ++ [x]

/-- Model of Python `dict.__setitem__` on an association list. -/
def insertMap (m : List (String × String)) (k v : String) : List (String × String) :=
  match m with
  | [] => [(k, v)]
  | (k1, v1) :: rest => if k1 = k then (k, v) :: rest else (k1, v1) :: insertMap rest k v

/-- Model of Python `dict.get`. -/
def lookupMap (m : List (String × String)) (k : String) : Option String :=
  match m with
  | [] => none
  | (k1, v1) :: rest => if k1 = k then some v1 else lookupMap rest k

/- ================================================================
   Data model: FileNode (src/models/file_node.py)
   ================================================================ -/

/-- `NodeType` from src/models/file_node.py. -/
inductive NodeType where
  | file
  | directory
deriving DecidableEq, Repr

/-- The fields of `FileNode` (src/models/file_node.py) that the checkpoint
logic reads: `name`, `relative_path` and the node kind.  Mutable per-node
status fields (`status`, `doc_path`, `error_message`, `has_api`, `api_info`)
are presentation state not read back by the checkpoint decisions modelled
here, so they are not part of this record. -/
structure FileNode where
  name : String
  relative_path : String
  node_type : NodeType
deriving DecidableEq, Repr

/-- `FileNode.is_file` (property `is_file` in src/models/file_node.py). -/
def FileNode.is_file (n : FileNode) : Bool :=
  n.node_type = NodeType.file

/- ================================================================
   Checkpoint store state (src/services/checkpoint.py, CheckpointService)
   ================================================================ -/

/-- Output-path configuration consumed by `CheckpointService`: the resolved
docs root and `config.dir_summary_name` (src/models/config.py). -/
structure DocConfig where
  docs_root : String
  dir_summary_name : String
deriving DecidableEq, Repr

/-- The in-memory state of `CheckpointService` (src/services/checkpoint.py,
`__init__`, lines 710-733): completed/failed path sets, the four
final-document completion booleans, the API file set and the three maps. -/
structure CheckpointState where
  completed_files : List String
  completed_dirs : List String
  failed_files : List String
  readme_completed : Bool
  reading_guide_completed : Bool
  api_doc_completed : Bool
  api_usage_doc_completed : Bool
  api_files : List String
  api_info_map : List (String × String)
  api_details_map : List (String × String)
  api_usage_details_map : List (String × String)
  doc_path_map : List (String × String)
deriving DecidableEq, Repr

/-- `CheckpointService.generate_doc_path` (src/services/checkpoint.py,
lines 1066-1094).  File: mirrored relative directory plus `name + ".md"`
(a single-component relative path, whose `Path(...).parent` is `.`, maps
directly under the docs root).  Directory: `dir_summary_name` inside the
mirrored directory (empty relative path means the docs root itself).
Paths are joined with `/` as `pathlib` does on POSIX. -/
def generate_doc_path (cfg : DocConfig) (node : FileNode) : String :=
  if node.is_file then
    let docName := node.name ++ ".md"
    let parentParts := (node.relative_path.splitOn "/").dropLast
    if parentParts.isEmpty then
      cfg.docs_root ++ "/" ++ docName
    else
      cfg.docs_root ++ "/" ++ String.intercalate "/" parentParts ++ "/" ++ docName
  else
    if node.relative_path = "" then
      cfg.docs_root ++ "/" ++ cfg.dir_summary_name
    else
      cfg.docs_root ++ "/" ++ node.relative_path ++ "/" ++ cfg.dir_summary_name

/-- `CheckpointService.doc_exists` (src/services/checkpoint.py, lines
770-781): the canonical document path exists on disk.  The filesystem is
modelled by the list `fs` of existing paths. -/
def doc_exists (cfg : DocConfig) (fs : List String) (node : FileNode) : Bool :=
  fs.contains (generate_doc_path cfg node)

/-- The in-memory record check at the start of `CheckpointService.is_completed`
(src/services/checkpoint.py, lines 794-798): files are looked up in the
completed-files set, directories in the completed-dirs set. -/
def in_completed_record (s : CheckpointState) (node : FileNode) : Bool :=
  if node.is_file then
    s.completed_files.contains node.relative_path
  else
    s.completed_dirs.contains node.relative_path

/-- `CheckpointService.is_completed` (src/services/checkpoint.py, lines
783-807).  `verify_file` defaults to `true` in the source. -/
def is_completed (cfg : DocConfig) (s : CheckpointState) (fs : List String)
    (node : FileNode) (verify_file : Bool := true) : Bool :=
  if !(in_completed_record s node) then
    false
  else if verify_file then
    doc_exists cfg fs node
  else
    true

/-- `CheckpointService.mark_completed` (src/services/checkpoint.py, lines
1011-1035): add to the matching completed set, record the doc path, discard
any failed record for the same key.  The synchronous `save_checkpoint` call
and the mutation of the node's own status fields have no effect on this
state. -/
def mark_completed (s : CheckpointState) (node : FileNode) (docPath : String) :
    CheckpointState :=
  { s with
    completed_files :=
      if node.is_file then insertSet s.completed_files node.relative_path
      else s.completed_files
    completed_dirs :=
      if node.is_file then s.completed_dirs
      else insertSet s.completed_dirs node.relative_path
    doc_path_map := insertMap s.doc_path_map node.relative_path docPath
    failed_files := s.failed_files.filter (fun p => p ≠ node.relative_path) }

/-- `CheckpointService.mark_failed` (src/services/checkpoint.py, lines
1037-1052): add to the failed set.  The completed sets are not touched. -/
def mark_failed (s : CheckpointState) (node : FileNode) (_error : String) :
    CheckpointState :=
  { s with failed_files := insertSet s.failed_files node.relative_path }

/-- `CheckpointService.mark_has_api` (src/services/checkpoint.py, lines
1249-1276): record the path in the API-files set and the info text in the
API-info map; if the path was not previously in the set, clear whichever of
the API-doc / API-usage-doc completion flags were set. -/
def mark_has_api (s : CheckpointState) (node : FileNode) (api_info : String) :
    CheckpointState :=
  let is_new_api_file := !(s.api_files.contains node.relative_path)
  let s1 := { s with
    api_files := insertSet s.api_files node.relative_path
    api_info_map := insertMap s.api_info_map node.relative_path api_info }
  if is_new_api_file then
    let s2 := if s1.api_doc_completed then { s1 with api_doc_completed := false } else s1
    if s2.api_usage_doc_completed then { s2 with api_usage_doc_completed := false } else s2
  else
    s1

/- ================================================================
   Stage-2 integrity gate of generate_api_doc
   (src/core/level_processor.py, lines 622-648)
   ================================================================ -/

/-- The possible outcomes of the stage-2 portion of
`LevelProcessor.generate_api_doc` (src/core/level_processor.py):
`abortedNoDetails` is the `if not all_details: return None` branch
(lines 626-630, which logs only that no details were extracted);
`abortedMissing missing` is the integrity-gate branch (lines 633-648,
`return None` after logging each missing path); `generated` means the
function proceeds to assemble and save the document. -/
inductive ApiDocResult where
  | abortedNoDetails
  | abortedMissing (missing : List String)
  | generated
deriving DecidableEq, Repr

/-- The stage-2 decision logic of `LevelProcessor.generate_api_doc`
(src/core/level_processor.py, lines 622-648): `api_files` is
`checkpoint.get_api_files()` and `api_details_map` is
`checkpoint.get_all_api_details()`; `missing_files` is accumulated over
`api_files` in order, keeping the paths absent from the details map. -/
def generate_api_doc_gate (api_files : List String)
    (api_details_map : List (String × String)) : ApiDocResult :=
  if api_details_map.isEmpty then
    ApiDocResult.abortedNoDetails
  else
    let missing_files := api_files.filter (fun f => (lookupMap api_details_map f).isNone)
    if missing_files.isEmpty then
      ApiDocResult.generated
    else
      ApiDocResult.abortedMissing missing_files

/- ================================================================
   API usage document: strategy branch and programmatic assembly
   (src/core/level_processor.py, lines 857-874 and 1045-1169;
    src/services/llm_service.py, line 707)
   ================================================================ -/

/-- `API_USAGE_BATCH_THRESHOLD` (src/services/llm_service.py, line 707). -/
def API_USAGE_BATCH_THRESHOLD : Nat := 20

/-- The two generation strategies of `LevelProcessor.generate_api_usage_doc`. -/
inductive UsageStrategy where
  | single
  | programmatic
deriving DecidableEq, Repr

/-- The branch in `LevelProcessor.generate_api_usage_doc`
(src/core/level_processor.py, lines 861-874):
`if api_count <= API_USAGE_BATCH_THRESHOLD` take the single-shot strategy,
otherwise the programmatic-assembly strategy. -/
def choose_usage_strategy (api_count : Nat) : UsageStrategy :=
  if api_count ≤ API_USAGE_BATCH_THRESHOLD then
    UsageStrategy.single
  else
    UsageStrategy.programmatic

/-- The per-file grouping key of `_generate_api_usage_programmatic`
(src/core/level_processor.py, lines 1126-1135): the first component of the
`/`-separated relative path if it has more than one component, else
`"root"`. -/
def top_group (file_path : String) : String :=
  match (file_path.replace "\\" "/").splitOn "/" with
  | [] => "root"
  | [_] => "root"
  | p :: _ :: _ => p

/-- One step of the insertion-ordered grouping dict built by
`_generate_api_usage_programmatic` (src/core/level_processor.py, lines
1125-1135): append the file to its group's list, creating the group at the
end on first sight. -/
def addToGroup (acc : List (String × List String)) (g f : String) :
    List (String × List String) :=
  match acc with
  | [] => [(g, [f])]
  | (g1, fs) :: rest =>
    if g1 = g then (g1, fs ++ [f]) :: rest else (g1, fs) :: addToGroup rest g f

/-- The grouping dict of `_generate_api_usage_programmatic`, built by
scanning the (already sorted) file list in order. -/
def buildGroups (files : List String) : List (String × List String) :=
  files.foldl (fun acc f => addToGroup acc (top_group f) f) []

/-- The section skeleton emitted by `_generate_api_usage_programmatic`
(src/core/level_processor.py, lines 1118-1152): file paths are sorted
(`sorted_files = sorted(all_details.keys())`), grouped by top-level
directory, and the groups are emitted in sorted order
(`for group_name, files in sorted(file_groups.items())`; group keys are
unique, so sorting the items coincides with sorting by key). -/
def programmatic_groups (all_details : List (String × String)) :
    List (String × List String) :=
  let sorted_files := (all_details.map Prod.fst).insertionSort (fun a b => a ≤ b)
  (buildGroups sorted_files).insertionSort (fun a b => a.1 ≤ b.1)

/- ================================================================
   Bottom-up pruning of the scanned tree
   (src/services/directory_scanner.py, lines 60-65 and 74-107)
   ================================================================ -/

/-- Shape of the scanned tree for the pruning pass: a node is a file or a
directory with an ordered children list (the `FileNode` parent link and the
path/name/depth payload play no role in which nodes get pruned, so only the
name and the file/directory structure are kept). -/
inductive FTree where
  | file (name : String)
  | dir (name : String) (children : List FTree)

/-- `DirectoryScanner._prune_empty_directories` (src/services/directory_scanner.py,
lines 74-107), as the transformation it performs on a children list: each
directory child is pruned recursively first (children finish before the
parent is evaluated), and a directory child whose pruned children list is
empty is dropped; file children and the relative order of the survivors are
kept.  `scan` (line 63) applies this to the root's children. -/
def pruneChildren : List FTree → List FTree
  | [] => []
  | FTree.file n :: rest => FTree.file n :: pruneChildren rest
  | FTree.dir n cs :: rest =>
    let cs2 := pruneChildren cs
    if cs2.isEmpty then pruneChildren rest
    else FTree.dir n cs2 :: pruneChildren rest

mutual

/-- A tree contains at least one file node. -/
def hasFile : FTree → Bool
  | FTree.file _ => true
  | FTree.dir _ cs => hasFileList cs

/-- Some tree in the list contains a file node. -/
def hasFileList : List FTree → Bool
  | [] => false
  | t :: ts => hasFile t || hasFileList ts

end

mutual

/-- Every directory node of the tree (including the tree itself if it is a
directory) has at least one file node among its descendants. -/
def dirsNonEmpty : FTree → Bool
  | FTree.file _ => true
  | FTree.dir _ cs => hasFileList cs && dirsNonEmptyList cs

/-- `dirsNonEmpty` holds of every tree in the list. -/
def dirsNonEmptyList : List FTree → Bool
  | [] => true
  | t :: ts => dirsNonEmpty t && dirsNonEmptyList ts

end

/- ================================================================
   Level-synchronized scheduling order
   (src/core/level_processor.py, lines 120-232)
   ================================================================ -/

/-- The descending depth sequence of `process_all_levels`
(src/core/level_processor.py, line 156: `for depth in range(self.max_depth, -1, -1)`):
`countdown (maxDepth + 1) = [maxDepth, maxDepth - 1, ..., 0]`. -/
def countdown : Nat → List Nat
  | 0 => []
  | n + 1 => n :: countdown n

/-- The depths actually processed by the loop of `process_all_levels`
(src/core/level_processor.py, lines 156-165): each level is awaited to
completion; when `_process_level` reports a failure (some node at that
depth failed), the loop saves the checkpoint and returns without touching
any further (shallower) depth.  `succ d` is the success bit returned by
`_process_level` for depth `d` (`len(failed) == 0`, line 232). -/
def processLoop (succ : Nat → Bool) : List Nat → List Nat
  | [] => []
  | d :: rest => if succ d then d :: processLoop succ rest else [d]

/-- The ordered list of depths processed in one run. -/
def processedDepths (maxDepth : Nat) (succ : Nat → Bool) : List Nat :=
  processLoop succ (countdown (maxDepth + 1))

/-- The global event trace of one run: `events d` is the list of per-node
terminal events of level `d` (their relative order inside a level is not
constrained — files and directories at a level complete concurrently); the
trace tags each event with its depth.  Because `process_all_levels` awaits
`_process_level(d)` (which itself awaits the file batch and the directory
batch) before moving on, the events of one processed depth all precede the
events of the next processed depth. -/
def fullTrace (maxDepth : Nat) (succ : Nat → Bool) (events : Nat → List Nat) :
    List (Nat × Nat) :=
  (processedDepths maxDepth succ).flatMap (fun d => (events d).map (fun t => (d, t)))

/- ================================================================
   Shared-semaphore concurrency discipline
   (src/core/level_processor.py, lines 70-80 and every LLM call site;
    src/services/llm_queue.py, lines 49-72 and 186-224)
   ================================================================ -/

/-- Atomic events of a coroutine relevant to the concurrency bound:
acquiring the shared semaphore (`async with self._semaphore` entry),
starting and finishing one model call, and releasing the semaphore
(`async with` exit). -/
inductive Act where
  | acq
  | callStart
  | callEnd
  | rel
deriving DecidableEq, Repr

/-- `kCalls k` is the body of one `async with self._semaphore:` block that
performs `k` model calls while holding the gate (the retry handler may call
the model several times inside one block). -/
def kCalls : Nat → List Act
  | 0 => []
  | k + 1 => Act.callStart :: Act.callEnd :: kCalls k

/-- One gated block as every LLM call site in the source executes it:
acquire the shared semaphore, perform the model call(s), release.
This is the shape of:
* `LLMQueue._worker` (src/services/llm_queue.py, lines 189-204), which
  wraps `_execute_task` — and hence `llm_service.analyze_code` — in
  `async with self.semaphore`, the semaphore handed over by
  `LevelProcessor.__init__` (src/core/level_processor.py, lines 73-80);
* `_process_single_directory` (src/core/level_processor.py, lines 429-451);
* `generate_readme` (lines 496-511) and `generate_reading_guide`
  (lines 548-563);
* the stage-1 extraction blocks `_extract_api_details_batch` (lines
  758-764) and `_extract_api_usage_details_batch` (lines 1323-1328);
* the stage-2 aggregation calls in `generate_api_doc` (lines 667-681),
  `_generate_api_usage_single` (lines 936-947), `_generate_api_usage_batched`
  (lines 997-1039) and `_generate_api_usage_programmatic` (lines 1081-1092). -/
def gatedBlock (k : Nat) : List Act :=
  Act.acq :: (kCalls k ++ [Act.rel])

/-- A whole coroutine program: a sequence of gated blocks (a queue worker
loops over tasks, each handled in its own gated block; the other call sites
are single blocks). -/
def siteProgram : List Nat → List Act
  | [] => []
  | k :: ks => gatedBlock k ++ siteProgram ks

/-- Control phase of one coroutine with respect to the gate: not holding
the semaphore, holding it, or holding it with a model call in flight. -/
inductive Phase where
  | idle
  | holding
  | calling
deriving DecidableEq, Repr

/-- One coroutine: its phase and its remaining program. -/
structure TaskSt where
  phase : Phase
  prog : List Act
deriving DecidableEq, Repr

/-- Global configuration: free permits of the shared `asyncio.Semaphore`
plus the coroutines. -/
structure Config where
  sem : Nat
  tasks : List TaskSt
deriving DecidableEq, Repr

/-- Interleaving small-step semantics: at any moment any one coroutine may
perform its next action, subject to `asyncio.Semaphore` semantics — `acq`
only fires when a permit is free (`sem = s + 1`), and `rel` returns the
permit.  The event loop's cooperative scheduling is modelled by the free
choice of which coroutine steps. -/
inductive Step : Config → Config → Prop where
  | acq (s : Nat) (pre post : List TaskSt) (p : List Act) :
      Step ⟨s + 1, pre ++ ⟨Phase.idle, Act.acq :: p⟩ :: post⟩
           ⟨s, pre ++ ⟨Phase.holding, p⟩ :: post⟩
  | callStart (s : Nat) (pre post : List TaskSt) (p : List Act) :
      Step ⟨s, pre ++ ⟨Phase.holding, Act.callStart :: p⟩ :: post⟩
           ⟨s, pre ++ ⟨Phase.calling, p⟩ :: post⟩
  | callEnd (s : Nat) (pre post : List TaskSt) (p : List Act) :
      Step ⟨s, pre ++ ⟨Phase.calling, Act.callEnd :: p⟩ :: post⟩
           ⟨s, pre ++ ⟨Phase.holding, p⟩ :: post⟩
  | rel (s : Nat) (pre post : List TaskSt) (p : List Act) :
      Step ⟨s, pre ++ ⟨Phase.holding, Act.rel :: p⟩ :: post⟩
           ⟨s + 1, pre ++ ⟨Phase.idle, p⟩ :: post⟩

/-- Reflexive-transitive closure of `Step`. -/
inductive Steps : Config → Config → Prop where
  | refl (c : Config) : Steps c c
  | tail {a b c : Config} : Steps a b → Step b c → Steps a c

/-- A run's initial configuration: the semaphore is created once with
`config.max_concurrent` free permits (src/core/level_processor.py, line 73)
and every coroutine is at the start of its program, not holding the gate. -/
def initConfig (maxConcurrent : Nat) (sites : List (List Nat)) : Config :=
  ⟨maxConcurrent, sites.map (fun ks => ⟨Phase.idle, siteProgram ks⟩)⟩

/-- Number of coroutines currently holding the semaphore. -/
def busyCount (ts : List TaskSt) : Nat :=
  ts.countP (fun t => t.phase ≠ Phase.idle)

/-- Number of model calls currently in flight. -/
def callingCount (ts : List TaskSt) : Nat :=
  ts.countP (fun t => t.phase = Phase.calling)

/-- Well-formed remaining program for a coroutine in a given phase: model
calls only ever occur between an acquire and the matching release.  Every
`siteProgram` is well-formed from `idle` (proved below); this is the shape
every LLM call site in the source has. -/
inductive ProgOk : Phase → List Act → Prop where
  | done : ProgOk Phase.idle []
  | acq {p : List Act} : ProgOk Phase.holding p → ProgOk Phase.idle (Act.acq :: p)
  | callStart {p : List Act} : ProgOk Phase.calling p → ProgOk Phase.holding (Act.callStart :: p)
  | rel {p : List Act} : ProgOk Phase.idle p → ProgOk Phase.holding (Act.rel :: p)
  | callEnd {p : List Act} : ProgOk Phase.holding p → ProgOk Phase.calling (Act.callEnd :: p)

/-- The semaphore invariant: free permits plus holders equals the configured
maximum, and every coroutine's remaining program is gate-disciplined. -/
def Inv (maxConcurrent : Nat) (c : Config) : Prop :=
  c.sem + busyCount c.tasks = maxConcurrent ∧ ∀ t ∈ c.tasks, ProgOk t.phase t.prog

/- ================================================================
   API-name normalization for the reconciliation pass
   (src/services/checkpoint.py, lines 535-565)
   ================================================================ -/

/-- Python's `str.split(None, 1)` returns zero, one or two parts. -/
inductive SplitRes where
  | nothing
  | one (tok : List Char)
  | two (tok rest : List Char)
deriving DecidableEq, Repr

/-- The whitespace class of Python `str.split(None, ...)` / `str.strip()`. -/
def pyWS (c : Char) : Bool :=
  c = ' ' || c = '\t' || c = '\n' || c = '\r' || c = '\x0b' || c = '\x0c'

/-- Python `s.split(None, 1)`: skip leading whitespace; the first part is
the maximal run of non-whitespace; the second part is the remainder with
the separating whitespace run removed (trailing whitespace stays in it).
Empty or all-whitespace input gives no parts. -/
def pySplit1 (s : List Char) : SplitRes :=
  if (s.dropWhile pyWS).isEmpty then SplitRes.nothing
  else if (((s.dropWhile pyWS).dropWhile (fun c => !pyWS c)).dropWhile pyWS).isEmpty then
    SplitRes.one ((s.dropWhile pyWS).takeWhile (fun c => !pyWS c))
  else
    SplitRes.two ((s.dropWhile pyWS).takeWhile (fun c => !pyWS c))
      (((s.dropWhile pyWS).dropWhile (fun c => !pyWS c)).dropWhile pyWS)

/-- `_normalize_api_for_comparison` (src/services/checkpoint.py, lines
535-565): uppercase, split into method and path on the first whitespace
run, strip a parameter signature (everything from the first `(`) from the
path, and rejoin with a single space; inputs that do not split into exactly
two parts are returned uppercased unchanged.  `str.upper` is modelled by
per-character ASCII uppercasing (`Char.toUpper`), which agrees with Python
on the ASCII range; the interface strings this runs on are method + path
text. -/
def normalize_api_for_comparison (s : List Char) : List Char :=
  match pySplit1 (s.map Char.toUpper) with
  | SplitRes.two m p =>
    m ++ ' ' :: (if p.contains '(' then p.takeWhile (fun c => c ≠ '(') else p)
  | _ => s.map Char.toUpper

/- ================================================================
   API marker-block parsing
   (src/services/checkpoint.py, parse_api_info_from_doc, lines 17-85)
   ================================================================ -/

/-- Match a literal character sequence at the front, returning the rest. -/
def matchLit : List Char → List Char → Option (List Char)
  | [], s => some s
  | _ :: _, [] => none
  | p :: ps, c :: cs => if p = c then matchLit ps cs else none

/-- Case-insensitive variant of `matchLit` (models `re.IGNORECASE`;
ASCII case folding, which covers every letter in the source's patterns). -/
def matchLitCI : List Char → List Char → Option (List Char)
  | [], s => some s
  | _ :: _, [] => none
  | p :: ps, c :: cs => if p.toLower = c.toLower then matchLitCI ps cs else none

/-- Match the opening sentinel pattern of the source, the regex
`<!--\s*API_START\s*-->` under `IGNORECASE`, at the front of the input:
the literal `<!--`, any run of whitespace, `API_START` case-insensitively,
any run of whitespace, the literal `-->`.  (The regex's greedy `\s*`
followed by a non-whitespace literal matches exactly the maximal
whitespace run, so `dropWhile` is faithful.)  Returns the suffix after
the sentinel. -/
def matchOpenAt (s : List Char) : Option (List Char) :=
  (matchLit ("<!--".toList) s).bind (fun s1 =>
  (matchLitCI ("api_start".toList) (s1.dropWhile pyWS)).bind (fun s2 =>
  matchLit ("-->".toList) (s2.dropWhile pyWS)))

/-- Match the closing sentinel pattern `<!--\s*API_END\s*-->` (IGNORECASE)
at the front of the input. -/
def matchCloseAt (s : List Char) : Option (List Char) :=
  (matchLit ("<!--".toList) s).bind (fun s1 =>
  (matchLitCI ("api_end".toList) (s1.dropWhile pyWS)).bind (fun s2 =>
  matchLit ("-->".toList) (s2.dropWhile pyWS)))

/-- `re.search` for the opening sentinel: the suffix remaining after the
leftmost occurrence, or `none`. -/
def searchOpen : List Char → Option (List Char)
  | [] => none
  | c :: cs =>
    match matchOpenAt (c :: cs) with
    | some r => some r
    | none => searchOpen cs

/-- The lazy `(.*?)` capture in front of the closing sentinel: the
characters strictly before the earliest occurrence of the closing
sentinel, or `none` if it never occurs. -/
def splitAtClose : List Char → Option (List Char)
  | [] => none
  | c :: cs =>
    match matchCloseAt (c :: cs) with
    | some _ => some []
    | none => (splitAtClose cs).map (fun blk => c :: blk)

/-- Whether the closing sentinel occurs anywhere in the input. -/
def hasClose : List Char → Bool
  | [] => false
  | c :: cs => (matchCloseAt (c :: cs)).isSome || hasClose cs

/-- Python `str.strip()`: remove leading and trailing whitespace. -/
def pyStrip (s : List Char) : List Char :=
  ((s.dropWhile pyWS).reverse.dropWhile pyWS).reverse

/-- Generic scan: does `f` accept some suffix of the input (i.e. does the
pattern recognized by `f` match at some position)? -/
def scanAny (f : List Char → Bool) : List Char → Bool
  | [] => f []
  | c :: cs => f (c :: cs) || scanAny f cs

/-- Substring containment (`pat in s` / `re.search` of a literal). -/
def containsSub (pat s : List Char) : Bool :=
  scanAny (fun t => (matchLit pat t).isSome) s

/-- Case-insensitive substring containment. -/
def containsSubCI (pat s : List Char) : Bool :=
  scanAny (fun t => (matchLitCI pat t).isSome) s

/-- ASCII letter. -/
def isAsciiLetter (c : Char) : Bool :=
  ('A' ≤ c && c ≤ 'Z') || ('a' ≤ c && c ≤ 'z')

/-- The CJK range `一-龥` used by the source's character classes. -/
def isCJK (c : Char) : Bool :=
  '一' ≤ c && c ≤ '龥'

/-- The class `[A-Za-z一-龥_]` of the source's method patterns. -/
def isMethodChar (c : Char) : Bool :=
  isAsciiLetter c || isCJK c || c = '_'

/-- ASCII digit. -/
def isDigitCh (c : Char) : Bool :=
  '0' ≤ c && c ≤ '9'

/-- Python's `\w`, modelled on the ranges the source's patterns meet:
ASCII letters and digits, underscore, and the CJK block. -/
def isWordCh (c : Char) : Bool :=
  isAsciiLetter c || isDigitCh c || c = '_' || isCJK c

/-- The class `[/\w]`. -/
def isSlashOrWord (c : Char) : Bool :=
  c = '/' || isWordCh c

/-- The bracket-method pattern `\[[A-Za-z一-龥_]+\]\s*[/\w]`
(src/services/checkpoint.py, line 62) matched at the front of the input. -/
def bracketMethodAt : List Char → Bool
  | '[' :: rest =>
    if (rest.takeWhile isMethodChar).isEmpty then false
    else
      match rest.dropWhile isMethodChar with
      | ']' :: rest2 =>
        match rest2.dropWhile pyWS with
        | c :: _ => isSlashOrWord c
        | [] => false
      | _ => false
  | _ => false

/-- The list-item pattern `-\s+[A-Za-z一-龥_]+\s+[/\w]`
(src/services/checkpoint.py, line 68) matched at the front of the input. -/
def listItemAt : List Char → Bool
  | '-' :: rest =>
    if (rest.takeWhile pyWS).isEmpty then false
    else
      let r1 := rest.dropWhile pyWS
      if (r1.takeWhile isMethodChar).isEmpty then false
      else
        let r2 := r1.dropWhile isMethodChar
        if (r2.takeWhile pyWS).isEmpty then false
        else
          match r2.dropWhile pyWS with
          | c :: _ => isSlashOrWord c
          | [] => false
  | _ => false

/-- The versioned-path route pattern `/v\d+/` under IGNORECASE
(src/services/checkpoint.py, line 74) matched at the front. -/
def vPathAt : List Char → Bool
  | '/' :: c :: rest =>
    if c.toLower = 'v' then
      if (rest.takeWhile isDigitCh).isEmpty then false
      else
        match rest.dropWhile isDigitCh with
        | '/' :: _ => true
        | _ => false
    else false
  | _ => false

/-- The Spring-annotation route pattern `@\w+Mapping` under IGNORECASE
(src/services/checkpoint.py, line 76) matched at the front: an `@`, at
least one word character, then `Mapping`; equivalently, `mapping` occurs
case-insensitively in the word-character run after `@` at offset ≥ 1. -/
def mappingAt : List Char → Bool
  | '@' :: rest =>
    match rest.takeWhile isWordCh with
    | [] => false
    | _ :: runTail => containsSubCI ("mapping".toList) runTail
  | _ => false

/-- The Flask/FastAPI decorator pattern `@app\.\w+` under IGNORECASE
(src/services/checkpoint.py, line 77) matched at the front. -/
def appDecoratorAt : List Char → Bool
  | '@' :: rest =>
    match matchLitCI ("app.".toList) rest with
    | some r => !(r.takeWhile isWordCh).isEmpty
    | none => false
  | _ => false

/-- The FastAPI router pattern `@router\.\w+` under IGNORECASE
(src/services/checkpoint.py, line 78) matched at the front. -/
def routerDecoratorAt : List Char → Bool
  | '@' :: rest =>
    match matchLitCI ("router.".toList) rest with
    | some r => !(r.takeWhile isWordCh).isEmpty
    | none => false
  | _ => false

/-- The has-API classification applied to a (stripped) marker block,
src/services/checkpoint.py lines 48-85, in source order: the explicit
`contains API: no` / `contains API: yes` markers, the `接口列表` keyword,
the bracket-method pattern, the list-item pattern, and the route-pattern
fallbacks.  Returns `(has_api, api_info)` exactly as the source does
(returning the block itself as the info on a positive classification). -/
def classifyApiBlock (blk : List Char) : Bool × Option (List Char) :=
  if containsSub ("包含API接口: 否".toList) blk || containsSub ("包含API接口：否".toList) blk then
    (false, none)
  else if containsSub ("包含API接口: 是".toList) blk || containsSub ("包含API接口：是".toList) blk then
    (true, some blk)
  else if containsSub ("接口列表".toList) blk then
    (true, some blk)
  else if scanAny bracketMethodAt blk then
    (true, some blk)
  else if scanAny listItemAt blk then
    (true, some blk)
  else if containsSubCI ("/api/".toList) blk then
    (true, some blk)
  else if scanAny vPathAt blk then
    (true, some blk)
  else if scanAny mappingAt blk then
    (true, some blk)
  else if scanAny appDecoratorAt blk then
    (true, some blk)
  else if scanAny routerDecoratorAt blk then
    (true, some blk)
  else
    (false, none)

/-- `parse_api_info_from_doc` (src/services/checkpoint.py, lines 17-85).
Result: `(has_api, api_info, warned)`, where `warned` records whether the
missing-closing-sentinel warning of line 46 was logged.

The complete-block regex (line 31) matches iff the closing sentinel occurs
after the leftmost opening sentinel (its lazy group captures up to the
earliest closing sentinel); otherwise the start-only fallback regex
(line 38) captures from the leftmost opening sentinel to the end of the
document.  (`(.*?)$` without MULTILINE may stop before one final newline,
but the subsequent `.strip()` erases the difference, so taking the full
tail is faithful.)  Both branches strip the captured block and run the same
classification on it. -/
def parse_api_info_from_doc (doc : List Char) : Bool × Option (List Char) × Bool :=
  match searchOpen doc with
  | none => (false, none, false)
  | some rest =>
    match splitAtClose rest with
    | some raw =>
      let r := classifyApiBlock (pyStrip raw)
      (r.1, r.2, false)
    | none =>
      let r := classifyApiBlock (pyStrip rest)
      (r.1, r.2, true)

/- ================================================================
   Concrete witness data and auxiliary definitions
   ================================================================ -/

/-- Ten API-bearing files with details cached for nine of them: the
scenario input for the C4 witness. -/
def tenApiFiles : List String :=
  ["f0.py", "f1.py", "f2.py", "f3.py", "f4.py", "f5.py", "f6.py", "f7.py", "f8.py", "f9.py"]

/-- Details for the first nine of `tenApiFiles`. -/
def nineDetails : List (String × String) :=
  ["f0.py", "f1.py", "f2.py", "f3.py", "f4.py", "f5.py", "f6.py", "f7.py", "f8.py"].map
    (fun f => (f, "details"))

instance decKeyLe : DecidableRel (fun a b : String × List String => a.1 ≤ b.1) :=
  fun a b => inferInstanceAs (Decidable (a.1 ≤ b.1))

instance totalKeyLe : IsTotal (String × List String) (fun a b => a.1 ≤ b.1) :=
  ⟨fun a b => le_total a.1 b.1⟩

instance transKeyLe : IsTrans (String × List String) (fun a b => a.1 ≤ b.1) :=
  ⟨fun _ _ _ h1 h2 => le_trans h1 h2⟩

/-- The loop invariant of the grouping pass: distinct keys; each entry's
list is exactly the filter of the already-processed files by its key; keys
not present have an empty filter. -/
def GroupInv (acc : List (String × List String)) (processed : List String) : Prop :=
  (acc.map Prod.fst).Nodup ∧
  (∀ gf ∈ acc, gf.2 = processed.filter (fun x => top_group x == gf.1)) ∧
  (∀ h : String, h ∉ acc.map Prod.fst →
    processed.filter (fun x => top_group x == h) = [])

/-- Concrete detail cache for the C5 witness. -/
def detailsW : List (String × String) :=
  [("srv/b.py", "d1"), ("app/a.py", "d2"), ("top.py", "d3"), ("app/z.py", "d4")]

/-- Concrete call-site mix for the C2 witness: three coroutines issuing
one, two and one gated calls. -/
def sitesW : List (List Nat) :=
  [[1], [2], [1]]

/-- A truncated document for the C8 witness: opening sentinel present, no
closing sentinel, block classified as API-bearing by the `接口列表`
keyword and the bracket-method line. -/
def docW : List Char :=
  "intro <!-- API_START --> 接口列表:\n- [GET] /health".toList

/-- The suffix of `docW` after its opening sentinel. -/
def restW : List Char :=
  " 接口列表:\n- [GET] /health".toList

/- ================================================================
   Helper lemmas
   ================================================================ -/

theorem mem_insertSet_self (l : List String) (x : String) : x ∈ insertSet l x := by
  unfold insertSet
  split
  · next h => exact List.elem_iff.mp h
  · simp

theorem insertSet_contains (l : List String) (x : String) :
    (insertSet l x).contains x = true :=
  List.elem_iff.mpr (mem_insertSet_self l x)

theorem lookupMap_insertMap (m : List (String × String)) (k v : String) :
    lookupMap (insertMap m k v) k = some v := by
  induction m with
  | nil => simp [insertMap, lookupMap]
  | cons hd tl ih =>
    obtain ⟨k1, v1⟩ := hd
    unfold insertMap
    by_cases h : k1 = k
    · simp [h, lookupMap]
    · simp [h, lookupMap, ih]

/- ================================================================
   Claim theorems
   ================================================================ -/

/-- C1: with default verification, `is_completed` returns true if and only
if the node's relative path is in the matching completed set (files checked
against the completed-files set, directories against the completed-dirs
set) and the canonical document path computed by `generate_doc_path`
exists on disk; in particular every node reported complete has its
document present. -/
theorem is_completed_iff_record_and_doc (cfg : DocConfig) (s : CheckpointState)
    (fs : List String) (node : FileNode) :
    is_completed cfg s fs node true = true ↔
      ((if node.is_file then node.relative_path ∈ s.completed_files
        else node.relative_path ∈ s.completed_dirs) ∧
       generate_doc_path cfg node ∈ fs) := by
  unfold is_completed in_completed_record doc_exists
  by_cases hf : node.is_file <;>
    by_cases hr : (s.completed_files).contains node.relative_path <;>
    by_cases hd : (s.completed_dirs).contains node.relative_path <;>
    simp_all [List.elem_iff]

/-- C6: `mark_has_api` always adds the path to the API-files set and
records the info text in the API-info map; the API-doc and API-usage-doc
completion flags survive exactly when the path was already in the
API-files set (a first-time path clears whichever flags were set, an
already-known path leaves both flags unchanged). -/
theorem mark_has_api_spec (s : CheckpointState) (node : FileNode) (info : String) :
    ((mark_has_api s node info).api_files.contains node.relative_path = true) ∧
    (lookupMap (mark_has_api s node info).api_info_map node.relative_path = some info) ∧
    ((mark_has_api s node info).api_doc_completed =
      (s.api_files.contains node.relative_path && s.api_doc_completed)) ∧
    ((mark_has_api s node info).api_usage_doc_completed =
      (s.api_files.contains node.relative_path && s.api_usage_doc_completed)) := by
  unfold mark_has_api
  by_cases hmem : s.api_files.contains node.relative_path <;>
    by_cases h1 : s.api_doc_completed <;>
    by_cases h2 : s.api_usage_doc_completed <;>
    simp_all [insertSet_contains, lookupMap_insertMap, insertSet]

/-- C9: the completed and failed sets are not kept disjoint in one
direction: after `mark_completed(node, p)` followed by `mark_failed(node, e)`
the node's relative path is in the matching completed set and in the
failed set simultaneously, and `is_completed` (default verification) still
returns true for the node exactly when its document exists — being in the
failed set does not block it. -/
theorem mark_failed_keeps_completed (cfg : DocConfig) (s : CheckpointState)
    (fs : List String) (node : FileNode) (p e : String) :
    (in_completed_record (mark_failed (mark_completed s node p) node e) node = true) ∧
    ((mark_failed (mark_completed s node p) node e).failed_files.contains
        node.relative_path = true) ∧
    (is_completed cfg (mark_failed (mark_completed s node p) node e) fs node true =
      doc_exists cfg fs node) := by
  have hrec : in_completed_record (mark_failed (mark_completed s node p) node e) node = true := by
    unfold in_completed_record mark_failed mark_completed
    by_cases hf : node.is_file <;> simp [hf, List.elem_iff, mem_insertSet_self]
  refine ⟨hrec, ?_, ?_⟩
  · unfold mark_failed
    exact insertSet_contains _ _
  · unfold is_completed
    simp [hrec]

/-- C4 counterexample: when the detail cache is entirely empty (so every
API-bearing file is missing a stage-1 detail entry), `generate_api_doc`
takes the earlier `if not all_details` exit: it still returns `None`, but
it does not report the missing file paths — contradicting the claim that
whenever at least one API-bearing file lacks a detail entry the function
reports exactly the set of missing paths. -/
theorem generate_api_doc_gate_empty_cache :
    generate_api_doc_gate ["a.py"] [] = ApiDocResult.abortedNoDetails ∧
    generate_api_doc_gate ["a.py"] [] ≠ ApiDocResult.abortedMissing ["a.py"] := by
  constructor
  · rfl
  · decide

/-- C4 (amended): if at stage 2 at least one API-bearing file has no
stage-1 detail entry, `generate_api_doc` returns `None` and no API
document is produced; when the detail cache is non-empty it reports
exactly the API-bearing paths that are missing an entry (the filter of
`api_files` by absence from the cache, whose membership is characterized
below); when the cache is entirely empty it returns `None` reporting only
that no details were extracted. -/
theorem generate_api_doc_gate_spec (api_files : List String)
    (m : List (String × String)) :
    ((api_files.any (fun f => (lookupMap m f).isNone)) = true →
      generate_api_doc_gate api_files m ≠ ApiDocResult.generated) ∧
    (m.isEmpty = false →
      (api_files.any (fun f => (lookupMap m f).isNone)) = true →
      generate_api_doc_gate api_files m =
        ApiDocResult.abortedMissing
          (api_files.filter (fun f => (lookupMap m f).isNone))) ∧
    (∀ f, f ∈ api_files.filter (fun f => (lookupMap m f).isNone) ↔
      (f ∈ api_files ∧ lookupMap m f = none)) := by
  refine ⟨?_, ?_, ?_⟩
  · intro hany
    unfold generate_api_doc_gate
    by_cases hm : m.isEmpty
    · simp [hm]
    · have hne : (api_files.filter (fun f => (lookupMap m f).isNone)).isEmpty = false := by
        rcases List.any_eq_true.mp hany with ⟨f, hf, hnone⟩
        exact List.isEmpty_eq_false.mpr
          (List.ne_nil_of_mem (List.mem_filter.mpr ⟨hf, hnone⟩))
      simp [hm, hne]
  · intro hm hany
    unfold generate_api_doc_gate
    have hne : (api_files.filter (fun f => (lookupMap m f).isNone)).isEmpty = false := by
      rcases List.any_eq_true.mp hany with ⟨f, hf, hnone⟩
      exact List.isEmpty_eq_false.mpr
        (List.ne_nil_of_mem (List.mem_filter.mpr ⟨hf, hnone⟩))
    simp [hm, hne]
  · intro f
    constructor
    · intro hf
      rcases List.mem_filter.mp hf with ⟨hmem, hnone⟩
      exact ⟨hmem, Option.isNone_iff_eq_none.mp hnone⟩
    · intro ⟨hmem, hnone⟩
      exact List.mem_filter.mpr ⟨hmem, Option.isNone_iff_eq_none.mpr hnone⟩


/-- C4 witness: with 10 API-bearing files and details cached for 9, the
gate aborts reporting exactly the single missing path. -/
theorem generate_api_doc_gate_spec_witness :
    generate_api_doc_gate tenApiFiles nineDetails = ApiDocResult.abortedMissing ["f9.py"] ∧
    generate_api_doc_gate tenApiFiles nineDetails ≠ ApiDocResult.generated := by
  constructor
  · rw [(generate_api_doc_gate_spec tenApiFiles nineDetails).2.1 (by decide) (by decide)]
    decide
  · exact (generate_api_doc_gate_spec tenApiFiles nineDetails).1 (by decide)

/- ================================================================
   C5: usage-document strategy and programmatic assembly
   ================================================================ -/


/-- When the key is not yet present, `addToGroup` appends a fresh entry. -/
theorem addToGroup_fresh (acc : List (String × List String)) (g f : String)
    (hg : g ∉ acc.map Prod.fst) :
    addToGroup acc g f = acc ++ [(g, [f])] := by
  induction acc with
  | nil => rfl
  | cons hd tl ih =>
    obtain ⟨g1, fs1⟩ := hd
    simp only [List.map_cons, List.mem_cons] at hg
    push_neg at hg
    unfold addToGroup
    rw [if_neg (fun h => hg.1 h.symm), ih hg.2]
    rfl

/-- When the key is present, `addToGroup` appends the file to the first
(and, under key-distinctness, only) entry with that key. -/
theorem addToGroup_found (acc : List (String × List String)) (g f : String)
    (hg : g ∈ acc.map Prod.fst) :
    ∃ pre fs post, acc = pre ++ (g, fs) :: post ∧ g ∉ pre.map Prod.fst ∧
      addToGroup acc g f = pre ++ (g, fs ++ [f]) :: post := by
  induction acc with
  | nil => simp at hg
  | cons hd tl ih =>
    obtain ⟨g1, fs1⟩ := hd
    by_cases hk : g1 = g
    · subst hk
      refine ⟨[], fs1, tl, by simp, by simp, ?_⟩
      unfold addToGroup
      rw [if_pos rfl]
      rfl
    · have hgtl : g ∈ tl.map Prod.fst := by
        simp only [List.map_cons, List.mem_cons] at hg
        rcases hg with h | h
        · exact absurd h.symm hk
        · exact h
      obtain ⟨pre, fs, post, heq, hpre, hadd⟩ := ih hgtl
      refine ⟨(g1, fs1) :: pre, fs, post, by rw [heq]; rfl, ?_, ?_⟩
      · simp only [List.map_cons, List.mem_cons]
        push_neg
        exact ⟨fun h => hk h.symm, hpre⟩
      · unfold addToGroup
        rw [if_neg hk, hadd]
        rfl


theorem addToGroup_invariant (acc : List (String × List String))
    (processed : List String) (f : String) (hinv : GroupInv acc processed) :
    GroupInv (addToGroup acc (top_group f) f) (processed ++ [f]) := by
  obtain ⟨hk, hf, hc⟩ := hinv
  by_cases hmem : top_group f ∈ acc.map Prod.fst
  · obtain ⟨pre, fs, post, heq, hpre, hadd⟩ := addToGroup_found acc (top_group f) f hmem
    subst heq
    rw [hadd]
    refine ⟨by simpa using hk, ?_, ?_⟩
    · intro gf hgf
      have hkey_once : (top_group f) ∉ (pre.map Prod.fst) ∧
          (top_group f) ∉ (post.map Prod.fst) := by
        constructor
        · exact hpre
        · intro hpost
          have := hk
          simp only [List.map_append, List.map_cons] at this
          rcases List.nodup_append.mp this with ⟨_, hnd2, hdisj⟩
          exact (List.nodup_cons.mp hnd2).1 hpost
      rcases List.mem_append.mp hgf with hin | hin
      · have hne : gf.1 ≠ top_group f := fun h => hkey_once.1 (h ▸ List.mem_map_of_mem _ hin)
        have := hf gf (List.mem_append.mpr (Or.inl hin))
        rw [List.filter_append, this]
        simp [List.filter_cons, Ne.symm hne, beq_iff_eq, hne]
      · rcases List.mem_cons.mp hin with hin | hin
        · subst hin
          have := hf (top_group f, fs)
            (List.mem_append.mpr (Or.inr (List.mem_cons_self _ _)))
          simp only at this
          rw [List.filter_append, ← this]
          simp [List.filter_cons, beq_iff_eq]
        · have hne : gf.1 ≠ top_group f := fun h =>
            hkey_once.2 (h ▸ List.mem_map_of_mem _ hin)
          have := hf gf (List.mem_append.mpr (Or.inr (List.mem_cons_of_mem _ hin)))
          rw [List.filter_append, this]
          simp [List.filter_cons, Ne.symm hne, beq_iff_eq, hne]
    · intro h0 hnot
      have hkeys : (pre ++ (top_group f, fs ++ [f]) :: post).map Prod.fst =
          (pre ++ (top_group f, fs) :: post).map Prod.fst := by
        simp
      rw [hkeys] at hnot
      have hne : h0 ≠ top_group f := by
        intro he
        exact hnot (by rw [he]; simp)
      rw [List.filter_append, hc h0 hnot]
      simp [List.filter_cons, beq_iff_eq, Ne.symm hne]
  · rw [addToGroup_fresh acc (top_group f) f hmem]
    refine ⟨?_, ?_, ?_⟩
    · simp only [List.map_append, List.map_cons, List.map_nil]
      rw [List.nodup_append]
      exact ⟨hk, List.nodup_singleton _, by simpa using fun h => hmem h⟩
    · intro gf hgf
      rcases List.mem_append.mp hgf with hin | hin
      · have hne : gf.1 ≠ top_group f := fun h => hmem (h ▸ List.mem_map_of_mem _ hin)
        rw [List.filter_append, hf gf hin]
        simp [List.filter_cons, beq_iff_eq, Ne.symm hne, hne]
      · simp only [List.mem_singleton] at hin
        subst hin
        rw [List.filter_append, hc (top_group f) hmem]
        simp [List.filter_cons, beq_iff_eq]
    · intro h hnot
      simp only [List.map_append, List.map_cons, List.map_nil, List.mem_append,
        List.mem_cons, List.not_mem_nil] at hnot
      push_neg at hnot
      rw [List.filter_append, hc h (by simpa using hnot.1)]
      simp [List.filter_cons, beq_iff_eq, Ne.symm hnot.2.1]

theorem buildGroups_loop (files : List String) :
    ∀ (acc : List (String × List String)) (processed : List String),
      GroupInv acc processed →
      GroupInv (files.foldl (fun acc f => addToGroup acc (top_group f) f) acc)
        (processed ++ files) := by
  induction files with
  | nil =>
    intro acc processed h
    simpa using h
  | cons f fs ih =>
    intro acc processed h
    have step := addToGroup_invariant acc processed f h
    have := ih (addToGroup acc (top_group f) f) (processed ++ [f]) step
    simpa using this

/-- The grouping dict characterization: each entry of `buildGroups files`
holds exactly the files of its group, in their original relative order. -/
theorem buildGroups_filter (files : List String) :
    ∀ gf ∈ buildGroups files, gf.2 = files.filter (fun x => top_group x == gf.1) := by
  have := buildGroups_loop files [] [] ⟨List.nodup_nil, by simp, by simp⟩
  simpa [buildGroups] using this.2.1

/-- C5 counterexample: with the interface count exactly at the threshold
(`API_USAGE_BATCH_THRESHOLD = 20`), `generate_api_usage_doc` takes the
single-shot branch (`api_count <= API_USAGE_BATCH_THRESHOLD`), not the
programmatic-assembly branch the claim requires "at or above the
threshold". -/
theorem choose_usage_strategy_at_threshold :
    choose_usage_strategy API_USAGE_BATCH_THRESHOLD = UsageStrategy.single ∧
    choose_usage_strategy API_USAGE_BATCH_THRESHOLD ≠ UsageStrategy.programmatic := by
  constructor
  · rfl
  · decide

/-- C5 (amended): `generate_api_usage_doc` branches on the interface count
parsed from the API inventory document against the fixed threshold of 20:
at or below the threshold it generates the usage document with one model
call over all details; strictly above the threshold it takes the
programmatic-assembly branch, whose per-interface sections are spliced from
the stage-1 usage-detail cache grouped by source directory in sorted-path
order — the emitted groups are in sorted key order, and each group lists
exactly its own directory's files, sorted, drawn from the cache keys. -/
theorem generate_api_usage_strategy_spec (api_count : Nat)
    (all_details : List (String × String)) :
    (api_count ≤ API_USAGE_BATCH_THRESHOLD →
      choose_usage_strategy api_count = UsageStrategy.single) ∧
    (API_USAGE_BATCH_THRESHOLD < api_count →
      choose_usage_strategy api_count = UsageStrategy.programmatic) ∧
    List.Pairwise (fun a b => a.1 ≤ b.1) (programmatic_groups all_details) ∧
    (∀ gf ∈ programmatic_groups all_details,
      List.Pairwise (fun a b : String => a ≤ b) gf.2 ∧
      ∀ f ∈ gf.2, top_group f = gf.1 ∧ f ∈ all_details.map Prod.fst) := by
  refine ⟨?_, ?_, ?_, ?_⟩
  · intro h
    simp [choose_usage_strategy, h]
  · intro h
    simp [choose_usage_strategy, Nat.not_le.mpr h]
  · unfold programmatic_groups
    exact List.sorted_insertionSort (fun a b : String × List String => a.1 ≤ b.1) _
  · intro gf hgf
    have hsortmem : gf ∈ buildGroups
        ((all_details.map Prod.fst).insertionSort (fun a b => a ≤ b)) := by
      have hperm := List.perm_insertionSort
        (fun a b : String × List String => a.1 ≤ b.1)
        (buildGroups ((all_details.map Prod.fst).insertionSort (fun a b => a ≤ b)))
      exact hperm.mem_iff.mp hgf
    have hchar := buildGroups_filter _ gf hsortmem
    have hsorted : List.Pairwise (fun a b : String => a ≤ b)
        ((all_details.map Prod.fst).insertionSort (fun a b => a ≤ b)) :=
      List.sorted_insertionSort (fun a b : String => a ≤ b) _
    constructor
    · rw [hchar]
      exact List.Pairwise.sublist (List.filter_sublist _) hsorted
    · intro f hf
      rw [hchar] at hf
      rcases List.mem_filter.mp hf with ⟨hmem, hbeq⟩
      refine ⟨by simpa using hbeq, ?_⟩
      exact (List.perm_insertionSort (fun a b : String => a ≤ b) _).mem_iff.mp hmem


/-- C5 witness: with 25 interfaces against the threshold of 20 the
programmatic-assembly branch is taken, and the assembled groups of a
concrete cache are in sorted order. -/
theorem generate_api_usage_strategy_spec_witness :
    choose_usage_strategy 25 = UsageStrategy.programmatic ∧
    List.Pairwise (fun a b => a.1 ≤ b.1) (programmatic_groups detailsW) :=
  ⟨(generate_api_usage_strategy_spec 25 detailsW).2.1 (by decide),
   (generate_api_usage_strategy_spec 25 detailsW).2.2.1⟩

/- ================================================================
   C7: pruning reaches a fixed point with no file-less directory left
   ================================================================ -/

theorem hasFile_file (n : String) : hasFile (FTree.file n) = true := by
  simp [hasFile]

theorem hasFile_dir (n : String) (cs : List FTree) :
    hasFile (FTree.dir n cs) = hasFileList cs := by
  simp [hasFile]

theorem hasFileList_cons (t : FTree) (ts : List FTree) :
    hasFileList (t :: ts) = (hasFile t || hasFileList ts) := by
  simp [hasFileList]

theorem dirsNonEmpty_file (n : String) : dirsNonEmpty (FTree.file n) = true := by
  simp [dirsNonEmpty]

theorem dirsNonEmpty_dir (n : String) (cs : List FTree) :
    dirsNonEmpty (FTree.dir n cs) = (hasFileList cs && dirsNonEmptyList cs) := by
  simp [dirsNonEmpty]

theorem dirsNonEmptyList_nil : dirsNonEmptyList [] = true := by
  simp [dirsNonEmptyList]

theorem dirsNonEmptyList_cons (t : FTree) (ts : List FTree) :
    dirsNonEmptyList (t :: ts) = (dirsNonEmpty t && dirsNonEmptyList ts) := by
  simp [dirsNonEmptyList]

theorem hasFileList_of_mem (ts : List FTree) (t : FTree) (hmem : t ∈ ts)
    (ht : hasFile t = true) : hasFileList ts = true := by
  induction ts with
  | nil => simp at hmem
  | cons hd tl ih =>
    rcases List.mem_cons.mp hmem with h | h
    · subst h
      simp [hasFileList_cons, ht]
    · simp [hasFileList_cons, ih h]

theorem pruneChildren_nil : pruneChildren [] = [] := by
  simp [pruneChildren]

theorem pruneChildren_file (n : String) (rest : List FTree) :
    pruneChildren (FTree.file n :: rest) = FTree.file n :: pruneChildren rest := by
  simp [pruneChildren]

theorem pruneChildren_dir (n : String) (cs rest : List FTree) :
    pruneChildren (FTree.dir n cs :: rest) =
      if (pruneChildren cs).isEmpty then pruneChildren rest
      else FTree.dir n (pruneChildren cs) :: pruneChildren rest := by
  rw [pruneChildren]

theorem hasFile_of_mem_pruneChildren (ts : List FTree) :
    ∀ t ∈ pruneChildren ts, hasFile t = true := by
  induction ts using pruneChildren.induct with
  | case1 =>
    intro t ht
    rw [pruneChildren_nil] at ht
    simp at ht
  | case2 n rest ih =>
    intro t ht
    rw [pruneChildren_file] at ht
    rcases List.mem_cons.mp ht with h | h
    · subst h
      exact hasFile_file n
    · exact ih t h
  | case3 n cs rest cs2 hempty ihcs ihrest =>
    intro t ht
    rw [pruneChildren_dir, if_pos hempty] at ht
    exact ihrest t ht
  | case4 n cs rest cs2 hempty ihcs ihrest =>
    intro t ht
    rw [pruneChildren_dir, if_neg hempty] at ht
    rcases List.mem_cons.mp ht with h | h
    · subst h
      have hne : pruneChildren cs ≠ [] := by
        intro he
        exact hempty (by
          show (pruneChildren cs).isEmpty = true
          rw [he]
          rfl)
      obtain ⟨h0, hh0⟩ := List.exists_mem_of_ne_nil _ hne
      rw [hasFile_dir]
      exact hasFileList_of_mem _ h0 hh0 (ihcs h0 hh0)
    · exact ihrest t h

theorem prune_dirs_have_files (ts : List FTree) :
    dirsNonEmptyList (pruneChildren ts) = true := by
  induction ts using pruneChildren.induct with
  | case1 =>
    rw [pruneChildren_nil, dirsNonEmptyList_nil]
  | case2 n rest ih =>
    rw [pruneChildren_file, dirsNonEmptyList_cons, dirsNonEmpty_file, ih]
    rfl
  | case3 n cs rest cs2 hempty ihcs ihrest =>
    rw [pruneChildren_dir, if_pos hempty]
    exact ihrest
  | case4 n cs rest cs2 hempty ihcs ihrest =>
    rw [pruneChildren_dir, if_neg hempty]
    have hne : pruneChildren cs ≠ [] := by
      intro he
      exact hempty (by
          show (pruneChildren cs).isEmpty = true
          rw [he]
          rfl)
    obtain ⟨h0, hh0⟩ := List.exists_mem_of_ne_nil _ hne
    have hfl : hasFileList (pruneChildren cs) = true :=
      hasFileList_of_mem _ h0 hh0 (hasFile_of_mem_pruneChildren cs h0 hh0)
    rw [dirsNonEmptyList_cons, dirsNonEmpty_dir, hfl, ihcs, ihrest]
    rfl

theorem pruneChildren_idem (ts : List FTree) :
    pruneChildren (pruneChildren ts) = pruneChildren ts := by
  induction ts using pruneChildren.induct with
  | case1 =>
    rw [pruneChildren_nil, pruneChildren_nil]
  | case2 n rest ih =>
    rw [pruneChildren_file, pruneChildren_file, ih]
  | case3 n cs rest cs2 hempty ihcs ihrest =>
    rw [pruneChildren_dir, if_pos hempty]
    exact ihrest
  | case4 n cs rest cs2 hempty ihcs ihrest =>
    rw [pruneChildren_dir, if_neg hempty, pruneChildren_dir, ihcs, if_neg hempty, ihrest]

/-- C7: the single bottom-up pruning pass (children evaluated before their
parent) leaves a tree in which every remaining directory has at least one
file node among its descendants, and the pass is a fixed point: pruning the
pruned children list again changes nothing. -/
theorem prune_empty_directories_spec (ts : List FTree) :
    dirsNonEmptyList (pruneChildren ts) = true ∧
    pruneChildren (pruneChildren ts) = pruneChildren ts :=
  ⟨prune_dirs_have_files ts, pruneChildren_idem ts⟩

/- ================================================================
   C3: deepest-first level ordering and failure stop
   ================================================================ -/

theorem mem_countdown_lt (n : Nat) : ∀ d ∈ countdown n, d < n := by
  induction n with
  | zero => intro d hd; simp [countdown] at hd
  | succ n ih =>
    intro d hd
    rcases List.mem_cons.mp hd with h | h
    · subst h
      exact Nat.lt_succ_self _
    · exact Nat.lt_trans (ih d h) (Nat.lt_succ_self n)

theorem countdown_pairwise_gt (n : Nat) :
    List.Pairwise (fun a b => a > b) (countdown n) := by
  induction n with
  | zero => exact List.Pairwise.nil
  | succ n ih =>
    exact List.Pairwise.cons (fun d hd => mem_countdown_lt n d hd) ih

theorem processLoop_sublist (succ : Nat → Bool) (l : List Nat) :
    (processLoop succ l).Sublist l := by
  induction l with
  | nil => exact List.Sublist.refl []
  | cons d rest ih =>
    unfold processLoop
    by_cases h : succ d
    · rw [if_pos h]
      exact List.Sublist.cons₂ d ih
    · rw [if_neg h]
      exact List.Sublist.cons₂ d (List.nil_sublist rest)

theorem processLoop_pairwise_gt (succ : Nat → Bool) (l : List Nat)
    (h : List.Pairwise (fun a b => a > b) l) :
    List.Pairwise (fun a b => a > b) (processLoop succ l) :=
  List.Pairwise.sublist (processLoop_sublist succ l) h

/-- A failed depth is the last processed depth: everything processed is at
least as deep. -/
theorem processLoop_failed_last (succ : Nat → Bool) (l : List Nat)
    (hl : List.Pairwise (fun a b => a > b) l) :
    ∀ d ∈ processLoop succ l, succ d = false →
      ∀ d2 ∈ processLoop succ l, d ≤ d2 := by
  induction l with
  | nil => intro d hd; simp [processLoop] at hd
  | cons a rest ih =>
    intro d hd hfail d2 hd2
    unfold processLoop at hd hd2
    by_cases h : succ a
    · rw [if_pos h] at hd hd2
      rcases List.mem_cons.mp hd with h1 | h1
      · subst h1
        rw [h] at hfail
        exact absurd hfail (by simp)
      · rcases List.mem_cons.mp hd2 with h2 | h2
        · subst h2
          have hdin : d ∈ rest :=
            (processLoop_sublist succ rest).mem h1
          exact Nat.le_of_lt ((List.pairwise_cons.mp hl).1 d hdin)
        · exact ih (List.pairwise_cons.mp hl).2 d h1 hfail d2 h2
    · rw [if_neg h] at hd hd2
      simp only [List.mem_singleton] at hd hd2
      subst hd
      subst hd2
      exact Nat.le_refl _

theorem pairwise_of_total {α : Type} (l : List α) (R : α → α → Prop)
    (h : ∀ a b, R a b) : List.Pairwise R l := by
  induction l with
  | nil => exact List.Pairwise.nil
  | cons a t ih => exact List.Pairwise.cons (fun b _ => h a b) ih

theorem flatMap_pairwise_depth (ds : List Nat) (events : Nat → List Nat)
    (h : List.Pairwise (fun a b => a > b) ds) :
    List.Pairwise (fun a b : Nat × Nat => b.1 ≤ a.1)
      (ds.flatMap (fun d => (events d).map (fun t => (d, t)))) := by
  induction ds with
  | nil => simp
  | cons d rest ih =>
    rw [List.flatMap_cons, List.pairwise_append]
    refine ⟨?_, ih (List.pairwise_cons.mp h).2, ?_⟩
    · rw [List.pairwise_map]
      exact pairwise_of_total _ _ (fun a b => Nat.le_refl d)
    · intro a ha b hb
      rcases List.mem_map.mp ha with ⟨t, _, rfl⟩
      rcases List.mem_flatMap.mp hb with ⟨d2, hd2, hb2⟩
      rcases List.mem_map.mp hb2 with ⟨t2, _, rfl⟩
      exact Nat.le_of_lt ((List.pairwise_cons.mp h).1 d2 hd2)

theorem mem_fullTrace_depth (maxDepth : Nat) (succ : Nat → Bool)
    (events : Nat → List Nat) :
    ∀ e ∈ fullTrace maxDepth succ events, e.1 ∈ processedDepths maxDepth succ := by
  intro e he
  rcases List.mem_flatMap.mp he with ⟨d, hd, hmem⟩
  rcases List.mem_map.mp hmem with ⟨t, _, heq⟩
  subst heq
  exact hd

/-- C3: the scheduler's event trace is ordered by depth — for any two
depths d1 > d2 that are both processed, every terminal event of level d1
precedes every event of level d2 (the trace is weakly decreasing in depth,
and events of one level are contiguous); and once a level finishes with a
failure the loop stops, so no event at any shallower depth appears in the
trace at all.  The loop iterates `countdown (maxDepth + 1) =
[maxDepth, ..., 0]` and awaits each level before the next. -/
theorem process_all_levels_order (maxDepth : Nat) (succ : Nat → Bool)
    (events : Nat → List Nat) :
    List.Pairwise (fun a b : Nat × Nat => b.1 ≤ a.1)
      (fullTrace maxDepth succ events) ∧
    (∀ d, d ∈ processedDepths maxDepth succ → succ d = false →
      ∀ e ∈ fullTrace maxDepth succ events, d ≤ e.1) := by
  constructor
  · exact flatMap_pairwise_depth _ events
      (processLoop_pairwise_gt succ _ (countdown_pairwise_gt (maxDepth + 1)))
  · intro d hd hfail e he
    have hpw : List.Pairwise (fun a b => a > b) (countdown (maxDepth + 1)) :=
      countdown_pairwise_gt (maxDepth + 1)
    have := processLoop_failed_last succ _ hpw d hd hfail e.1
      (mem_fullTrace_depth maxDepth succ events e he)
    exact this

/- ================================================================
   C2: the shared semaphore bounds concurrent model calls
   ================================================================ -/

theorem kCalls_rel_ok (k : Nat) (rest : List Act) (h : ProgOk Phase.idle rest) :
    ProgOk Phase.holding (kCalls k ++ Act.rel :: rest) := by
  induction k with
  | zero => exact ProgOk.rel h
  | succ k ih => exact ProgOk.callStart (ProgOk.callEnd ih)

theorem siteProgram_ok (ks : List Nat) : ProgOk Phase.idle (siteProgram ks) := by
  induction ks with
  | nil => exact ProgOk.done
  | cons k ks ih =>
    show ProgOk Phase.idle (gatedBlock k ++ siteProgram ks)
    have : gatedBlock k ++ siteProgram ks =
        Act.acq :: (kCalls k ++ Act.rel :: siteProgram ks) := by
      unfold gatedBlock
      simp
    rw [this]
    exact ProgOk.acq (kCalls_rel_ok k (siteProgram ks) ih)

theorem busy_append (pre post : List TaskSt) (t : TaskSt) :
    busyCount (pre ++ t :: post) =
      busyCount pre + busyCount post + (if t.phase = Phase.idle then 0 else 1) := by
  unfold busyCount
  rw [List.countP_append, List.countP_cons]
  by_cases h : t.phase = Phase.idle
  · simp [h]
  · simp [h]
    omega

theorem progOk_of_mem {tasks : List TaskSt} (pre post : List TaskSt) (t : TaskSt)
    (heq : tasks = pre ++ t :: post)
    (hall : ∀ u ∈ tasks, ProgOk u.phase u.prog) :
    (∀ u ∈ pre, ProgOk u.phase u.prog) ∧ ProgOk t.phase t.prog ∧
    (∀ u ∈ post, ProgOk u.phase u.prog) := by
  subst heq
  refine ⟨fun u hu => hall u (List.mem_append.mpr (Or.inl hu)),
    hall t (List.mem_append.mpr (Or.inr (List.mem_cons_self _ _))),
    fun u hu => hall u (List.mem_append.mpr (Or.inr (List.mem_cons_of_mem _ hu)))⟩

theorem mem_mid {pre post : List TaskSt} {t u : TaskSt}
    (hu : u ∈ pre ++ t :: post) : u ∈ pre ∨ u = t ∨ u ∈ post := by
  rcases List.mem_append.mp hu with h | h
  · exact Or.inl h
  · rcases List.mem_cons.mp h with h | h
    · exact Or.inr (Or.inl h)
    · exact Or.inr (Or.inr h)

theorem step_preserves_inv {N : Nat} {c c2 : Config} (hstep : Step c c2)
    (hinv : Inv N c) : Inv N c2 := by
  obtain ⟨hcount, hok⟩ := hinv
  cases hstep with
  | acq s pre post p =>
    obtain ⟨hpre, hmid, hpost⟩ := progOk_of_mem pre post _ rfl hok
    have hmid2 : ProgOk Phase.holding p := by cases hmid with | acq h => exact h
    constructor
    · rw [busy_append] at hcount
      rw [busy_append]
      simp only [] at hcount ⊢
      simp at hcount ⊢
      omega
    · intro u hu
      rcases mem_mid hu with h | h | h
      · exact hpre u h
      · subst h
        exact hmid2
      · exact hpost u h
  | callStart s pre post p =>
    obtain ⟨hpre, hmid, hpost⟩ := progOk_of_mem pre post _ rfl hok
    have hmid2 : ProgOk Phase.calling p := by cases hmid with | callStart h => exact h
    constructor
    · rw [busy_append] at hcount
      rw [busy_append]
      simp only [] at hcount ⊢
      simp at hcount ⊢
      omega
    · intro u hu
      rcases mem_mid hu with h | h | h
      · exact hpre u h
      · subst h
        exact hmid2
      · exact hpost u h
  | callEnd s pre post p =>
    obtain ⟨hpre, hmid, hpost⟩ := progOk_of_mem pre post _ rfl hok
    have hmid2 : ProgOk Phase.holding p := by cases hmid with | callEnd h => exact h
    constructor
    · rw [busy_append] at hcount
      rw [busy_append]
      simp only [] at hcount ⊢
      simp at hcount ⊢
      omega
    · intro u hu
      rcases mem_mid hu with h | h | h
      · exact hpre u h
      · subst h
        exact hmid2
      · exact hpost u h
  | rel s pre post p =>
    obtain ⟨hpre, hmid, hpost⟩ := progOk_of_mem pre post _ rfl hok
    have hmid2 : ProgOk Phase.idle p := by cases hmid with | rel h => exact h
    constructor
    · rw [busy_append] at hcount
      rw [busy_append]
      simp only [] at hcount ⊢
      simp at hcount ⊢
      omega
    · intro u hu
      rcases mem_mid hu with h | h | h
      · exact hpre u h
      · subst h
        exact hmid2
      · exact hpost u h

theorem steps_preserve_inv {N : Nat} {c c2 : Config} (hsteps : Steps c c2)
    (hinv : Inv N c) : Inv N c2 := by
  induction hsteps with
  | refl => exact hinv
  | tail _ hstep ih => exact step_preserves_inv hstep ih

theorem initConfig_inv (N : Nat) (sites : List (List Nat)) :
    Inv N (initConfig N sites) := by
  constructor
  · show N + busyCount (sites.map fun ks => ⟨Phase.idle, siteProgram ks⟩) = N
    have : busyCount (sites.map fun ks => (⟨Phase.idle, siteProgram ks⟩ : TaskSt)) = 0 := by
      unfold busyCount
      rw [List.countP_eq_zero]
      intro t ht
      rcases List.mem_map.mp ht with ⟨ks, _, rfl⟩
      simp
    omega
  · intro t ht
    rcases List.mem_map.mp ht with ⟨ks, _, rfl⟩
    exact siteProgram_ok ks

/-- C2: in every execution of the interleaving semantics — starting from
the run's initial configuration, whose shared semaphore is created once
with the configured maximum concurrency and whose coroutines are the
gate-disciplined programs extracted from the source's LLM call sites
(worker-pool file analysis, directory aggregation, README and
reading-guide generation, and both stages of both API documents — see
`gatedBlock`) — the number of model calls in flight never exceeds the
configured maximum: every call happens while holding the semaphore, and at
most `maxConcurrent` coroutines hold it. -/
theorem llm_gate_bound (maxConcurrent : Nat) (sites : List (List Nat))
    (c : Config) (h : Steps (initConfig maxConcurrent sites) c) :
    callingCount c.tasks ≤ maxConcurrent := by
  obtain ⟨hcount, _⟩ := steps_preserve_inv h (initConfig_inv maxConcurrent sites)
  have hle : callingCount c.tasks ≤ busyCount c.tasks := by
    unfold callingCount busyCount
    apply List.countP_mono_left
    intro t _ hp
    simp only [decide_eq_true_eq] at hp
    simp [hp]
  omega


/-- C2 witness: the bound instantiated on a concrete configuration
reachable (trivially) from a run with maximum concurrency 2. -/
theorem llm_gate_bound_witness :
    callingCount (initConfig 2 sitesW).tasks ≤ 2 :=
  llm_gate_bound 2 sitesW (initConfig 2 sitesW) (Steps.refl (initConfig 2 sitesW))

/- ================================================================
   C10: the normalization of the reconciliation pass is idempotent
   ================================================================ -/

theorem toNat_ofNat_lt (n : Nat) (h : n < 55296) : (Char.ofNat n).toNat = n := by
  have hv : n.isValidChar := Or.inl h
  unfold Char.ofNat
  rw [dif_pos hv]
  rfl

theorem toUpper_idem (c : Char) : c.toUpper.toUpper = c.toUpper := by
  unfold Char.toUpper
  simp only []
  by_cases h : c.toNat ≥ 97 ∧ c.toNat ≤ 122
  · rw [if_pos h]
    have h32 : c.toNat - 32 < 55296 := by omega
    rw [toNat_ofNat_lt _ h32]
    have hno : ¬(c.toNat - 32 ≥ 97 ∧ c.toNat - 32 ≤ 122) := by omega
    rw [if_neg hno]
  · rw [if_neg h, if_neg h]

theorem map_id_of_mem {α : Type} (f : α → α) (l : List α) (h : ∀ a ∈ l, f a = a) :
    l.map f = l := by
  induction l with
  | nil => rfl
  | cons a t ih =>
    simp only [List.map_cons, h a (List.mem_cons_self a t)]
    rw [ih (fun b hb => h b (List.mem_cons_of_mem a hb))]

theorem dropWhile_head_false (p : Char → Bool) (l : List Char) (b : Char)
    (t : List Char) (h : l.dropWhile p = b :: t) : p b = false := by
  induction l with
  | nil => simp [List.dropWhile] at h
  | cons a s ih =>
    rw [List.dropWhile_cons] at h
    by_cases hp : p a
    · exact ih (by simpa [hp] using h)
    · rw [if_neg (by simpa using hp)] at h
      cases h
      simpa using hp

/-- C10: `_normalize_api_for_comparison` is idempotent — uppercasing is
stable and a parameter signature stripped once stays stripped — so
normalizing the interface lists more than once before the multiset
comparison of `compare_api_counts` cannot change the comparison's
outcome. -/
theorem normalize_api_for_comparison_idem (s : List Char) :
    normalize_api_for_comparison (normalize_api_for_comparison s) =
      normalize_api_for_comparison s := by
  have hupfix : ∀ x ∈ s.map Char.toUpper, Char.toUpper x = x := by
    intro x hx
    rcases List.mem_map.mp hx with ⟨y, _, rfl⟩
    exact toUpper_idem y
  have hupmap : (s.map Char.toUpper).map Char.toUpper = s.map Char.toUpper :=
    map_id_of_mem _ _ hupfix
  cases hsplit : pySplit1 (s.map Char.toUpper) with
  | nothing =>
    have h1 : normalize_api_for_comparison s = s.map Char.toUpper := by
      unfold normalize_api_for_comparison
      rw [hsplit]
    rw [h1]
    unfold normalize_api_for_comparison
    rw [hupmap, hsplit]
  | one tok =>
    have h1 : normalize_api_for_comparison s = s.map Char.toUpper := by
      unfold normalize_api_for_comparison
      rw [hsplit]
    rw [h1]
    unfold normalize_api_for_comparison
    rw [hupmap, hsplit]
  | two m p =>
    -- unpack the split
    have hsplit' := hsplit
    unfold pySplit1 at hsplit'
    by_cases he1 : ((s.map Char.toUpper).dropWhile pyWS).isEmpty
    · rw [if_pos he1] at hsplit'
      cases hsplit'
    · rw [if_neg he1] at hsplit'
      by_cases he2 : ((((s.map Char.toUpper).dropWhile pyWS).dropWhile
          (fun c => !pyWS c)).dropWhile pyWS).isEmpty
      · rw [if_pos he2] at hsplit'
        cases hsplit'
      · rw [if_neg he2] at hsplit'
        injection hsplit' with hm hp
        -- the head of the token run is a non-whitespace character
        have hs1 : ∃ c1 tl, (s.map Char.toUpper).dropWhile pyWS = c1 :: tl ∧
            pyWS c1 = false := by
          rcases hh : (s.map Char.toUpper).dropWhile pyWS with _ | ⟨c1, tl⟩
          · rw [hh] at he1
            simp at he1
          · exact ⟨c1, tl, rfl, dropWhile_head_false pyWS _ c1 tl hh⟩
        obtain ⟨c1, tl, hs1eq, hc1⟩ := hs1
        -- shape of m
        have hm2 : m = c1 :: tl.takeWhile (fun c => !pyWS c) := by
          rw [← hm, hs1eq, List.takeWhile_cons, if_pos (by simp [hc1])]
        have hmws : ∀ c ∈ m, pyWS c = false := by
          intro c hc
          rw [← hm] at hc
          have := List.mem_takeWhile_imp hc
          simpa using this
        have hmsub : m.Sublist (s.map Char.toUpper) := by
          rw [← hm]
          exact (List.takeWhile_sublist _).trans (List.dropWhile_sublist _)
        have hpsub : p.Sublist (s.map Char.toUpper) := by
          rw [← hp]
          exact ((List.dropWhile_sublist _).trans
            (List.dropWhile_sublist _)).trans (List.dropWhile_sublist _)
        -- the head of the remainder is a non-whitespace character
        have hpne : p ≠ [] := by
          intro he
          rw [← hp] at he
          rw [he] at he2
          simp at he2
        have hphead : ∃ ph pt, p = ph :: pt ∧ pyWS ph = false := by
          rcases hh : p with _ | ⟨ph, pt⟩
          · exact absurd hh hpne
          · refine ⟨ph, pt, rfl, ?_⟩
            rw [hh] at hp
            exact dropWhile_head_false pyWS _ ph pt hp
        obtain ⟨ph, pt, hpeq, hph⟩ := hphead
        -- the stripped path equals a parenthesis-free takeWhile in both branches
        have hp2 : (if p.contains '(' then p.takeWhile (fun c => c ≠ '(') else p) =
            p.takeWhile (fun c => c ≠ '(') := by
          by_cases hc : p.contains '('
          · rw [if_pos hc]
          · rw [if_neg hc]
            have hnotin : ∀ c ∈ p, (c ≠ '(' : Bool) = true := by
              intro c hcmem
              have : c ≠ '(' := by
                intro he
                subst he
                exact hc (List.elem_iff.mpr hcmem)
              simpa using this
            exact (List.takeWhile_eq_self_iff.mpr hnotin).symm
        -- first application computed
        have h1 : normalize_api_for_comparison s =
            m ++ ' ' :: p.takeWhile (fun c => c ≠ '(') := by
          unfold normalize_api_for_comparison
          rw [hsplit]
          show m ++ ' ' :: (if p.contains '(' then p.takeWhile (fun c => c ≠ '(') else p) =
            m ++ ' ' :: p.takeWhile (fun c => c ≠ '(')
          rw [hp2]
        rw [h1]
        -- the result is upper-fixed
        have hfixres : (m ++ ' ' :: p.takeWhile (fun c => c ≠ '(')).map Char.toUpper =
            m ++ ' ' :: p.takeWhile (fun c => c ≠ '(') := by
          apply map_id_of_mem
          intro a ha
          rcases List.mem_append.mp ha with h | h
          · exact hupfix a (hmsub.subset h)
          · rcases List.mem_cons.mp h with h | h
            · subst h
              decide
            · exact hupfix a
                (hpsub.subset ((List.takeWhile_sublist _).subset h))
        -- properties of the takeWhile fragment
        have htwws : ∀ c ∈ p.takeWhile (fun c => decide (c ≠ '(')), c ≠ '(' := by
          intro c hc
          have := List.mem_takeWhile_imp hc
          simpa using this
        -- compute the split of the reassembled string
        have hdrop1 : (m ++ ' ' :: p.takeWhile (fun c => c ≠ '(')).dropWhile pyWS =
            m ++ ' ' :: p.takeWhile (fun c => c ≠ '(') := by
          rw [hm2, List.cons_append, List.dropWhile_cons, if_neg (by simp [hc1])]
        have htok : (m ++ ' ' :: p.takeWhile (fun c => c ≠ '(')).takeWhile
            (fun c => !pyWS c) = m := by
          rw [List.takeWhile_append_of_pos (by intro a ha; simp [hmws a ha]),
            List.takeWhile_cons, if_neg (by simp [pyWS])]
          simp
        have hdrop2 : (m ++ ' ' :: p.takeWhile (fun c => c ≠ '(')).dropWhile
            (fun c => !pyWS c) = ' ' :: p.takeWhile (fun c => c ≠ '(') := by
          rw [List.dropWhile_append_of_pos (by intro a ha; simp [hmws a ha]),
            List.dropWhile_cons, if_neg (by simp [pyWS])]
        have hdrop3 : (' ' :: p.takeWhile (fun c => c ≠ '(')).dropWhile pyWS =
            (p.takeWhile (fun c => c ≠ '(')).dropWhile pyWS := by
          rw [List.dropWhile_cons, if_pos (by simp [pyWS])]
        -- branch on whether the stripped path is empty
        rcases htw : p.takeWhile (fun c => decide (c ≠ '(')) with _ | ⟨q, qt⟩
        · -- path became empty: "M " normal form, further splits yield one token
          rw [htw] at hdrop1 htok hdrop2 hdrop3
          unfold normalize_api_for_comparison
          have hfix2 : (m ++ [' ']).map Char.toUpper = m ++ [' '] := by
            have h := hfixres
            rw [htw] at h
            exact h
          rw [hfix2]
          unfold pySplit1
          rw [hdrop1]
          have hne : (m ++ [' ']).isEmpty = false := by
            rw [hm2]
            rfl
          rw [hne]
          simp only [Bool.false_eq_true, if_false]
          rw [hdrop2, hdrop3]
          simp [htok]
        · -- path stays: the second split returns the same two parts
          have hq : q = ph := by
            rw [hpeq, List.takeWhile_cons] at htw
            by_cases hbr : (ph ≠ '(' : Bool)
            · rw [if_pos hbr] at htw
              exact (List.cons.injEq _ _ _ _ ▸ htw).1.symm
            · rw [if_neg hbr] at htw
              cases htw
          have hqws : pyWS q = false := by
            rw [hq]
            exact hph
          rw [htw] at hdrop1 htok hdrop2 hdrop3
          unfold normalize_api_for_comparison
          have hfix2 : (m ++ ' ' :: q :: qt).map Char.toUpper = m ++ ' ' :: q :: qt := by
            have h := hfixres
            rw [htw] at h
            exact h
          rw [hfix2]
          unfold pySplit1
          rw [hdrop1]
          have hne1 : (m ++ ' ' :: q :: qt).isEmpty = false := by
            rw [hm2]
            rfl
          rw [hne1]
          simp only [Bool.false_eq_true, if_false]
          rw [hdrop2, hdrop3]
          have hdrop4 : (q :: qt).dropWhile pyWS = q :: qt := by
            rw [List.dropWhile_cons, if_neg (by simp [hqws])]
          rw [hdrop4]
          have hne2 : (q :: qt).isEmpty = false := rfl
          rw [hne2]
          simp only [Bool.false_eq_true, if_false]
          rw [htok]
          show m ++ ' ' :: (if (q :: qt).contains '(' then
              (q :: qt).takeWhile (fun c => c ≠ '(') else q :: qt) =
            m ++ ' ' :: q :: qt
          -- the stripped path has no parenthesis, so it is not stripped again
          have hnocon : (q :: qt).contains '(' = false := by
            rw [← htw]
            have hninp : ('(' : Char) ∉ p.takeWhile (fun c => decide (c ≠ '(')) := by
              intro hin
              exact htwws '(' hin rfl
            rw [← Bool.not_eq_true]
            intro hcon
            exact hninp (List.elem_iff.mp hcon)
          rw [hnocon]
          simp

/- ================================================================
   C8: tolerance of a missing closing sentinel
   ================================================================ -/

theorem matchLit_suffix (pat : List Char) :
    ∀ s r : List Char, matchLit pat s = some r → r.IsSuffix s := by
  induction pat with
  | nil =>
    intro s r h
    unfold matchLit at h
    cases h
    exact List.suffix_refl _
  | cons p ps ih =>
    intro s r h
    cases s with
    | nil => cases h
    | cons c cs =>
      unfold matchLit at h
      by_cases hpc : p = c
      · rw [if_pos hpc] at h
        exact (ih cs r h).trans (List.suffix_cons c cs)
      · rw [if_neg hpc] at h
        cases h

theorem matchLitCI_suffix (pat : List Char) :
    ∀ s r : List Char, matchLitCI pat s = some r → r.IsSuffix s := by
  induction pat with
  | nil =>
    intro s r h
    unfold matchLitCI at h
    cases h
    exact List.suffix_refl _
  | cons p ps ih =>
    intro s r h
    cases s with
    | nil => cases h
    | cons c cs =>
      unfold matchLitCI at h
      by_cases hpc : p.toLower = c.toLower
      · rw [if_pos hpc] at h
        exact (ih cs r h).trans (List.suffix_cons c cs)
      · rw [if_neg hpc] at h
        cases h

theorem matchOpenAt_suffix (s r : List Char) (h : matchOpenAt s = some r) :
    r.IsSuffix s := by
  unfold matchOpenAt at h
  rcases h1 : matchLit ("<!--".toList) s with _ | s1
  · rw [h1] at h
    have h2 : (Option.none : Option (List Char)) = some r := h
    cases h2
  · rw [h1] at h
    have h2 : (matchLitCI ("api_start".toList) (s1.dropWhile pyWS)).bind
        (fun s2 => matchLit ("-->".toList) (s2.dropWhile pyWS)) = some r := h
    rcases h3 : matchLitCI ("api_start".toList) (s1.dropWhile pyWS) with _ | s2
    · rw [h3] at h2
      have h4 : (Option.none : Option (List Char)) = some r := h2
      cases h4
    · rw [h3] at h2
      have h4 : matchLit ("-->".toList) (s2.dropWhile pyWS) = some r := h2
      exact ((matchLit_suffix _ _ _ h4).trans (List.dropWhile_suffix pyWS)).trans
        (((matchLitCI_suffix _ _ _ h3).trans (List.dropWhile_suffix pyWS)).trans
          (matchLit_suffix _ _ _ h1))

theorem searchOpen_suffix (s r : List Char) (h : searchOpen s = some r) :
    r.IsSuffix s := by
  induction s with
  | nil => cases h
  | cons c cs ih =>
    unfold searchOpen at h
    rcases h1 : matchOpenAt (c :: cs) with _ | r1
    · rw [h1] at h
      have h2 : searchOpen cs = some r := h
      exact (ih h2).trans (List.suffix_cons c cs)
    · rw [h1] at h
      have h2 : some r1 = some r := h
      cases h2
      exact matchOpenAt_suffix _ _ h1

theorem hasClose_append (pre r : List Char) (h : hasClose r = true) :
    hasClose (pre ++ r) = true := by
  induction pre with
  | nil => exact h
  | cons c cs ih =>
    show ((matchCloseAt (c :: (cs ++ r))).isSome || hasClose (cs ++ r)) = true
    rw [ih]
    simp

theorem hasClose_of_suffix (s r : List Char) (hsuf : r.IsSuffix s)
    (h : hasClose s = false) : hasClose r = false := by
  obtain ⟨pre, rfl⟩ := hsuf
  by_cases hr : hasClose r
  · rw [hasClose_append pre r hr] at h
    cases h
  · simpa using hr

theorem splitAtClose_none (r : List Char) (h : hasClose r = false) :
    splitAtClose r = none := by
  induction r with
  | nil => rfl
  | cons c cs ih =>
    unfold hasClose at h
    unfold splitAtClose
    rcases h1 : matchCloseAt (c :: cs) with _ | x
    · rw [h1] at h
      simp only [Option.isSome_none, Bool.false_or] at h
      rw [ih h]
      rfl
    · rw [h1] at h
      simp at h

/-- C8: for a document that contains the opening API sentinel but no
closing sentinel anywhere, `parse_api_info_from_doc` does not report the
block as absent: the complete-block regex fails, the start-only fallback
fires, everything from the opening sentinel to the end of the document is
taken as the block, the missing-closing-sentinel warning is logged (third
component `true`), and the same `classifyApiBlock` classification used for
a complete block is applied to the stripped block. -/
theorem parse_api_info_missing_end (doc rest : List Char)
    (hopen : searchOpen doc = some rest) (hnoclose : hasClose doc = false) :
    parse_api_info_from_doc doc =
      ((classifyApiBlock (pyStrip rest)).1, (classifyApiBlock (pyStrip rest)).2, true) := by
  unfold parse_api_info_from_doc
  rw [hopen]
  show (match splitAtClose rest with
    | some raw => ((classifyApiBlock (pyStrip raw)).1, (classifyApiBlock (pyStrip raw)).2, false)
    | none => ((classifyApiBlock (pyStrip rest)).1, (classifyApiBlock (pyStrip rest)).2, true)) =
    ((classifyApiBlock (pyStrip rest)).1, (classifyApiBlock (pyStrip rest)).2, true)
  rw [splitAtClose_none rest
    (hasClose_of_suffix doc rest (searchOpen_suffix doc rest hopen) hnoclose)]


/-- C8 witness: the theorem applied to the concrete truncated document. -/
theorem parse_api_info_missing_end_witness :
    parse_api_info_from_doc docW =
      ((classifyApiBlock (pyStrip restW)).1, (classifyApiBlock (pyStrip restW)).2, true) :=
  parse_api_info_missing_end docW restW (by decide) (by decide)

end CodeSummary
